import Mathlib

/-!
Verification of the core of `hexagonal_softbodies` (src/main.rs): the
hexagonal-lattice mesh builder (`create_particle_lattice`), the physics
integrator (`update_physics`, `Particle::update`, `Tether::update`,
`apply_force_from_point`) and the stack-based `flood_fill`.

Modelling conventions
* `f32` arithmetic is modelled by exact arithmetic.  Every coordinate this
  program produces lies in the field `ℚ[√3]` (x-coordinates are rational,
  y-coordinates are rational multiples of `√3`), so scalars are modelled by
  the type `QS` of pairs `a + b·√3` with `a b : ℚ`, a computable field.
* `f32::sqrt` is modelled by `QS.sqrtApprox`, which is exact on perfect
  squares of rationals (every case whose value any claim below depends on)
  and is a floor-style integer-square-root approximation elsewhere.
* Rust casts `as u32` of nonnegative floats truncate toward zero, i.e. take
  the floor; negative values saturate to `0`.  This is `QS.toU32`.
* Rust panics (`panic!`, out-of-bounds slice indexing and pixel access)
  are modelled by `Option`, a panic being `none`.
-/

/-- The subfield `ℚ[√3]` of `ℝ`, represented as pairs: `⟨a, b⟩` stands for
`a + b·√3`.  The representation is faithful because `√3` is irrational. -/
structure QS where
  a : ℚ
  b : ℚ
deriving DecidableEq

namespace QS

def add (x y : QS) : QS := ⟨x.a + y.a, x.b + y.b⟩

def neg (x : QS) : QS := ⟨-x.a, -x.b⟩

def sub (x y : QS) : QS := ⟨x.a - y.a, x.b - y.b⟩

/-- `(a + b√3)(c + d√3) = (ac + 3bd) + (ad + bc)√3`. -/
def mul (x y : QS) : QS := ⟨x.a * y.a + 3 * x.b * y.b, x.a * y.b + x.b * y.a⟩

/-- The field norm `a² - 3b²` of `a + b√3`; zero only at `0`. -/
def nrm (x : QS) : ℚ := x.a ^ 2 - 3 * x.b ^ 2

/-- `(a + b√3)⁻¹ = (a - b√3) / (a² - 3b²)`, with the junk value `0` at `0`. -/
def inv (x : QS) : QS := ⟨x.a / nrm x, -x.b / nrm x⟩

/-- Embedding of the rationals. -/
def ofRat (q : ℚ) : QS := ⟨q, 0⟩

@[ext] theorem qext {x y : QS} (ha : x.a = y.a) (hb : x.b = y.b) : x = y := by
  cases x; cases y; cases ha; cases hb; rfl

instance : Zero QS := ⟨⟨0, 0⟩⟩
instance : One QS := ⟨⟨1, 0⟩⟩
instance : Add QS := ⟨add⟩
instance : Neg QS := ⟨neg⟩
instance : Sub QS := ⟨sub⟩
instance : Mul QS := ⟨mul⟩
instance : Inv QS := ⟨inv⟩
instance : NatCast QS := ⟨fun n => ⟨(n : ℚ), 0⟩⟩
instance : IntCast QS := ⟨fun z => ⟨(z : ℚ), 0⟩⟩

@[simp] theorem add_a (x y : QS) : (x + y).a = x.a + y.a := rfl

@[simp] theorem add_b (x y : QS) : (x + y).b = x.b + y.b := rfl

@[simp] theorem sub_a (x y : QS) : (x - y).a = x.a - y.a := rfl

@[simp] theorem sub_b (x y : QS) : (x - y).b = x.b - y.b := rfl

@[simp] theorem neg_a (x : QS) : (-x).a = -x.a := rfl

@[simp] theorem neg_b (x : QS) : (-x).b = -x.b := rfl

@[simp] theorem mul_a (x y : QS) : (x * y).a = x.a * y.a + 3 * x.b * y.b := rfl

@[simp] theorem mul_b (x y : QS) : (x * y).b = x.a * y.b + x.b * y.a := rfl

@[simp] theorem zero_a : (0 : QS).a = 0 := rfl

@[simp] theorem zero_b : (0 : QS).b = 0 := rfl

@[simp] theorem one_a : (1 : QS).a = 1 := rfl

@[simp] theorem one_b : (1 : QS).b = 0 := rfl

@[simp] theorem natCast_a (n : ℕ) : ((n : ℕ) : QS).a = (n : ℚ) := rfl

@[simp] theorem natCast_b (n : ℕ) : ((n : ℕ) : QS).b = 0 := rfl

@[simp] theorem intCast_a (z : ℤ) : ((z : ℤ) : QS).a = (z : ℚ) := rfl

@[simp] theorem intCast_b (z : ℤ) : ((z : ℤ) : QS).b = 0 := rfl

@[simp] theorem inv_a (x : QS) : x⁻¹.a = x.a / nrm x := rfl

@[simp] theorem inv_b (x : QS) : x⁻¹.b = -x.b / nrm x := rfl

instance addCommGroup : AddCommGroup QS := by
  refine
    { add := (· + ·)
      zero := (0 : QS)
      neg := Neg.neg
      sub := Sub.sub
      nsmul := nsmulRec
      zsmul := zsmulRec
      add_assoc := ?_
      zero_add := ?_
      add_zero := ?_
      add_comm := ?_
      sub_eq_add_neg := ?_
      neg_add_cancel := ?_ } <;>
  intros <;> ext <;> simp <;> ring

instance commRing : CommRing QS := by
  refine
    { QS.addCommGroup with
      mul := (· * ·)
      one := (1 : QS)
      npow := npowRec
      natCast := Nat.cast
      intCast := Int.cast
      natCast_zero := ?_
      natCast_succ := ?_
      intCast_ofNat := ?_
      intCast_negSucc := ?_
      mul_assoc := ?_
      one_mul := ?_
      mul_one := ?_
      left_distrib := ?_
      right_distrib := ?_
      zero_mul := ?_
      mul_zero := ?_
      mul_comm := ?_ } <;>
  intros <;> ext <;> simp [Int.negSucc_eq] <;> ring

theorem mk_eq_mk {a b c d : ℚ} : (⟨a, b⟩ : QS) = ⟨c, d⟩ ↔ a = c ∧ b = d := by
  constructor
  · intro h; exact ⟨congrArg QS.a h, congrArg QS.b h⟩
  · rintro ⟨rfl, rfl⟩; rfl

theorem eq_zero_iff {x : QS} : x = 0 ↔ x.a = 0 ∧ x.b = 0 := by
  constructor
  · intro h; rw [h]; exact ⟨rfl, rfl⟩
  · intro ⟨ha, hb⟩; ext <;> simp [ha, hb]

theorem nrm_eq_zero_iff {x : QS} : nrm x = 0 ↔ x = 0 := by
  constructor
  · intro h
    by_cases hb : x.b = 0
    · have ha : x.a = 0 := by
        have h' := h
        unfold nrm at h'
        rw [hb] at h'
        simpa [pow_eq_zero_iff] using h'
      exact eq_zero_iff.mpr ⟨ha, hb⟩
    · exfalso
      have h3 : (x.a / x.b) ^ 2 = 3 := by
        have hx2 : x.a ^ 2 = 3 * x.b ^ 2 := by unfold nrm at h; linarith
        field_simp
        linarith
      have hirr : Irrational (Real.sqrt 3) := by
        simpa using Nat.prime_three.irrational_sqrt
      have hcast : ((x.a / x.b : ℚ) : ℝ) ^ 2 = 3 := by
        rw [← Rat.cast_pow, h3]; norm_num
      have habs : Real.sqrt 3 = |((x.a / x.b : ℚ) : ℝ)| := by
        rw [show (3 : ℝ) = ((x.a / x.b : ℚ) : ℝ) ^ 2 from hcast.symm]
        exact Real.sqrt_sq_eq_abs _
      have hi2 : Irrational |((x.a / x.b : ℚ) : ℝ)| := habs ▸ hirr
      rcases abs_cases ((x.a / x.b : ℚ) : ℝ) with ⟨he, _⟩ | ⟨he, _⟩
      · rw [he] at hi2; exact hi2 ⟨_, rfl⟩
      · rw [he] at hi2
        exact hi2 ⟨-(x.a / x.b), by push_cast; ring⟩
  · intro h; subst h; unfold nrm; simp

instance field : Field QS :=
  { QS.commRing with
    inv := inv
    exists_pair_ne := ⟨0, 1, by
      intro h
      have h' := congrArg QS.a h
      simp at h'⟩
    mul_inv_cancel := by
      intro x hx
      have hn : nrm x ≠ 0 := fun h => hx (nrm_eq_zero_iff.mp h)
      ext
      · show x.a * (x.a / nrm x) + 3 * x.b * (-x.b / nrm x) = 1
        field_simp
        unfold nrm
        ring
      · show x.a * (-x.b / nrm x) + x.b * (x.a / nrm x) = 0
        field_simp
        ring
    inv_zero := by
      ext
      · show (0 : ℚ) / nrm 0 = 0
        simp
      · show -QS.b 0 / nrm 0 = 0
        simp
    nnqsmul := _
    qsmul := _ }

@[simp] theorem ofRat_a (q : ℚ) : (ofRat q).a = q := rfl

@[simp] theorem ofRat_b (q : ℚ) : (ofRat q).b = 0 := rfl

/-- Structural-recursion integer square root (largest `k ≤ bound` with
`k·k ≤ n`); used instead of the library's well-founded one so that concrete
instances reduce inside `decide`. -/
def natSqrtGo (n : ℕ) : ℕ → ℕ
  | 0 => 0
  | k + 1 => if (k + 1) * (k + 1) ≤ n then k + 1 else natSqrtGo n k

def natSqrt (n : ℕ) : ℕ := natSqrtGo n n

def intSqrt (z : ℤ) : ℤ := (natSqrt z.toNat : ℤ)

def ratSqrt (q : ℚ) : ℚ := mkRat (intSqrt q.num) (natSqrt q.den)

/-- Model of `f32::sqrt` on `QS` scalars.  Every square root whose value
matters to a claim is of a perfect rational square (squared distances of
axis-aligned or hex-lattice segments), where this is exact; elsewhere it is
an integer-square-root approximation of the rational part. -/
def sqrtApprox (x : QS) : QS := ⟨ratSqrt x.a, 0⟩

/-- Floor of `a + b·√3` as an integer, computed exactly:
with `N/D + (M/D)·√3` over a common positive denominator `D`,
`⌊(N + √(3M²))/D⌋ = ⌊(N + ⌊√(3M²)⌋)/D⌋` for `M ≥ 0`, and symmetrically
for `M < 0`. -/
def floorQS (x : QS) : ℤ :=
  let D : ℤ := (x.a.den : ℤ) * (x.b.den : ℤ)
  let N : ℤ := x.a.num * (x.b.den : ℤ)
  let M : ℤ := x.b.num * (x.a.den : ℤ)
  if 0 ≤ M then
    Int.fdiv (N + intSqrt (3 * M ^ 2)) D
  else
    let s := intSqrt (3 * M ^ 2)
    if s * s = 3 * M ^ 2 then Int.fdiv (N - s) D else Int.fdiv (N - s - 1) D

/-- Model of Rust's `as u32` cast of a (nonnegative in all uses) float:
truncation toward zero = floor; negative values saturate to `0`. -/
def toU32 (x : QS) : ℕ := (floorQS x).toNat

end QS

/-- 2-D vector over the scalar field `QS` (models macroquad's `Vec2`). -/
structure V2 where
  x : QS
  y : QS
deriving DecidableEq

namespace V2

def add (v w : V2) : V2 := ⟨v.x + w.x, v.y + w.y⟩

def sub (v w : V2) : V2 := ⟨v.x - w.x, v.y - w.y⟩

def neg (v : V2) : V2 := ⟨-v.x, -v.y⟩

/-- Scalar multiplication `s * v` (also models `v * s`). -/
def smul (s : QS) (v : V2) : V2 := ⟨s * v.x, s * v.y⟩

/-- Division of a vector by a scalar. -/
def sdiv (v : V2) (s : QS) : V2 := ⟨v.x / s, v.y / s⟩

instance : Zero V2 := ⟨⟨0, 0⟩⟩
instance : Add V2 := ⟨add⟩
instance : Sub V2 := ⟨sub⟩
instance : Neg V2 := ⟨neg⟩

@[simp] theorem add_x (v w : V2) : (v + w).x = v.x + w.x := rfl

@[simp] theorem add_y (v w : V2) : (v + w).y = v.y + w.y := rfl

@[simp] theorem sub_x (v w : V2) : (v - w).x = v.x - w.x := rfl

@[simp] theorem sub_y (v w : V2) : (v - w).y = v.y - w.y := rfl

@[simp] theorem neg_x (v : V2) : (-v).x = -v.x := rfl

@[simp] theorem neg_y (v : V2) : (-v).y = -v.y := rfl

@[simp] theorem zero_x : (0 : V2).x = 0 := rfl

@[simp] theorem zero_y : (0 : V2).y = 0 := rfl

@[simp] theorem smul_x (s : QS) (v : V2) : (smul s v).x = s * v.x := rfl

@[simp] theorem smul_y (s : QS) (v : V2) : (smul s v).y = s * v.y := rfl

@[ext] theorem vext {v w : V2} (hx : v.x = w.x) (hy : v.y = w.y) : v = w := by
  cases v; cases w; cases hx; cases hy; rfl

/-- `Vec2::length`: `√(x² + y²)` (see `QS.sqrtApprox` for the sqrt model). -/
def length (v : V2) : QS := QS.sqrtApprox (v.x * v.x + v.y * v.y)

/-- `Vec2::normalize`: `v / |v|`. -/
def normalize (v : V2) : V2 := sdiv v (length v)

end V2

/-! ### Physics model (src/main.rs lines 639-752, 413-423) -/

/-- Model of `struct Particle` (main.rs line 639).  `color` is macroquad's
`Color`, modelled as the hex value it is built from. -/
structure Particle where
  position : V2
  velocity : V2
  acceleration : V2
  mass : QS
  net_force : V2
  color : ℕ
deriving DecidableEq

instance : Inhabited Particle := ⟨⟨0, 0, 0, 1, 0, 0⟩⟩

/-- `Particle::new` (main.rs line 649). -/
def Particle.new (position velocity : V2) (mass : QS) : Particle :=
  ⟨position, velocity, 0, mass, 0, 0xf2df50⟩

/-- `Particle::apply_force` (main.rs line 660): `net_force += force`. -/
def Particle.apply_force (p : Particle) (force : V2) : Particle :=
  { p with net_force := p.net_force + force }

/-- `Particle::update` (main.rs line 664): `acceleration = net_force / mass`,
`velocity += acceleration * dt`, `position += velocity * dt`, then the net
force is zeroed. -/
def Particle.update (dt : QS) (p : Particle) : Particle :=
  let acceleration := V2.sdiv p.net_force p.mass
  let velocity := p.velocity + V2.smul dt acceleration
  let position := p.position + V2.smul dt velocity
  ⟨position, velocity, acceleration, p.mass, 0, p.color⟩

/-- Model of `struct Tether` (main.rs line 678). -/
structure Tether where
  p1_index : ℕ
  p2_index : ℕ
  k : QS
  damping_constant : QS
  initial_dist : QS
deriving DecidableEq

/-- `Tether::new` (main.rs line 687): captures the current distance between
the two endpoint particles as `initial_dist`.  (Indexing is total here with a
default; in every call site of the program the indices are in bounds.) -/
def Tether.new (p1_index p2_index : ℕ) (k damping_constant : QS)
    (particle_arr : List Particle) : Tether :=
  let pos1 := (particle_arr.getD p1_index default).position
  let pos2 := (particle_arr.getD p2_index default).position
  ⟨p1_index, p2_index, k, damping_constant, V2.length (pos2 - pos1)⟩

/-- glam broadcast `f32 + Vec2`: `s + v = (s + v.x, s + v.y)`. -/
def V2.adds (s : QS) (v : V2) : V2 := ⟨s + v.x, s + v.y⟩

/-- glam componentwise `Vec2 * Vec2`. -/
def V2.hmul (v w : V2) : V2 := ⟨v.x * w.x, v.y * w.y⟩

/-- `Tether::update` (main.rs line 705).  The `Ordering::Equal` arm is a
`panic!` (modelled `none`); out-of-range indices panic in `split_at_mut` /
slice indexing (also `none`).  Otherwise both endpoint particles receive the
spring-damper force.  The `dt` argument is taken but unused, as in the
source. -/
def Tether.update (t : Tether) (dt : QS) (particle_arr : List Particle) :
    Option (List Particle) :=
  if t.p1_index = t.p2_index then none
  else if max t.p1_index t.p2_index ≥ particle_arr.length then none
  else
    let p1 := particle_arr.getD t.p1_index default
    let p2 := particle_arr.getD t.p2_index default
    let dist := V2.length (p2.position - p1.position)
    let tether_direction := V2.normalize (p2.position - p1.position)
    let dx := dist - t.initial_dist
    let a := t.initial_dist
    let f := -t.k * dx - 10 * (a * dx + a - dx) / (dx + a) ^ 2 + 10 / a
    let force1 := V2.hmul (V2.adds f (V2.smul t.damping_constant p1.velocity))
      (-tether_direction)
    let force2 := V2.hmul (V2.adds f (V2.smul t.damping_constant p2.velocity))
      tether_direction
    some ((particle_arr.set t.p1_index (p1.apply_force force1)).set t.p2_index
      (p2.apply_force force2))

/-- The pair `physics_objects : (Vec<Particle>, Vec<Tether>)`. -/
structure Mesh where
  particles : List Particle
  tethers : List Tether
deriving DecidableEq

/-- `update_physics` (main.rs line 744): first every particle is integrated
(`Particle::update`), then every tether accumulates its forces
(`Tether::update`), in that order. -/
def update_physics (physics_objects : Mesh) (dt : QS) : Option Mesh :=
  let ps := physics_objects.particles.map (Particle.update dt)
  match physics_objects.tethers.foldlM (fun arr t => Tether.update t dt arr) ps with
  | none => none
  | some ps' => some ⟨ps', physics_objects.tethers⟩

/-- `apply_force_from_point` (main.rs line 413): every particle receives
`strength * normalize(position - point) / distance²`. -/
def apply_force_from_point (physics_objects : Mesh) (point : V2)
    (strength : QS) : Mesh :=
  { physics_objects with
    particles := physics_objects.particles.map (fun particle =>
      let distance := V2.length (particle.position - point)
      let direction := V2.normalize (particle.position - point)
      particle.apply_force (V2.sdiv (V2.smul strength direction) (distance ^ 2))) }

/-! ### Bitmap and hexagonal lattice builder (src/main.rs lines 425-637) -/

/-- An RGBA pixel `[u8; 4]`. -/
abbrev Color := ℕ × ℕ × ℕ × ℕ

/-- `DRAW_COLOR` (main.rs line 6). -/
def DRAW_COLOR : Color := (88, 96, 117, 255)

/-- The `ImageBuffer`: a fixed-size grid of pixels.  `pix` is total; every
pixel read the program performs is in bounds (hex centers lie inside the
bitmap, flood fill checks bounds before pushing). -/
structure Img where
  w : ℕ
  h : ℕ
  pix : ℕ → ℕ → Color

/-- `count_x` (main.rs line 435): `((width - 1) / dx) as u32`, `dx = 3r`. -/
def count_x (create_canvas : Img) (hex_radius : ℚ) : ℕ :=
  QS.toU32 (QS.ofRat (((create_canvas.w : ℚ) - 1) / (hex_radius * 3)))

/-- `count_y` (main.rs line 436): `((height - 1) / dy) as u32`, with
`dy = r·√3/2` (a `QS` with zero rational part). -/
def count_y (create_canvas : Img) (hex_radius : ℚ) : ℕ :=
  QS.toU32 (QS.ofRat ((create_canvas.h : ℚ) - 1) / ⟨0, hex_radius / 2⟩)

/-- The `hex_points` grid (main.rs lines 439-452): a row-major
`count_x · count_y` list whose slot `(row_i, column_i)` holds the hexagon
center `(left_pad + dx·column_i, dy·row_i)` if the bitmap pixel at that
center equals `DRAW_COLOR`, and `none` otherwise.  `left_pad` is `1.5·r` on
odd rows. -/
def hex_points (create_canvas : Img) (hex_radius : ℚ) :
    List (Option (QS × QS)) :=
  let cx := count_x create_canvas hex_radius
  let cy := count_y create_canvas hex_radius
  (List.range cy).flatMap (fun (row_i : ℕ) =>
    (List.range cx).map (fun (column_i : ℕ) =>
      let left_pad : ℚ := 3 / 2 * hex_radius * (row_i % 2 : ℕ)
      let x : QS := QS.ofRat (left_pad + hex_radius * 3 * (column_i : ℚ))
      let y : QS := ⟨0, hex_radius / 2 * (row_i : ℚ)⟩
      if create_canvas.pix (QS.toU32 x) (QS.toU32 y) = DRAW_COLOR then
        some (x, y)
      else none))

/-- The per-hexagon array `particle_indices : [usize; 6]` (slot order:
top-left, top-right, mid-right, bottom-right, bottom-left, mid-left),
initialised to zeroes. -/
structure HexIdx where
  i0 : ℕ
  i1 : ℕ
  i2 : ℕ
  i3 : ℕ
  i4 : ℕ
  i5 : ℕ
deriving DecidableEq

/-- Slot access `particle_indices[j]` for `j < 6`. -/
def HexIdx.get (v : HexIdx) : ℕ → ℕ
  | 0 => v.i0
  | 1 => v.i1
  | 2 => v.i2
  | 3 => v.i3
  | 4 => v.i4
  | _ => v.i5

/-- `hex_particles_indices[j].unwrap()` for a neighbor `j` that the guards
have established was placed (so the `unwrap` cannot panic); the default is
unreachable. -/
def getHexIdx (arr : List (Option HexIdx)) (j : ℕ) : HexIdx :=
  (arr.getD j none).getD ⟨0, 0, 0, 0, 0, 0⟩

/-- The body of the particle-creation loop (main.rs lines 463-600) for one
grid slot `i`.  State: the particle list built so far together with
`hex_particles_indices` for the slots already visited (the source
preallocates the latter and fills entry `i` at step `i`; entries not yet
filled are never read because the left / right / top neighbor indices are
all smaller than `i`). -/
def lattice_step (pts : List (Option (QS × QS))) (cx : ℕ) (hex_radius : ℚ)
    (st : List Particle × List (Option HexIdx)) (i : ℕ)
    (hex_point : Option (QS × QS)) : List Particle × List (Option HexIdx) :=
  match hex_point with
  | none => (st.1, st.2 ++ [none])
  | some (x, y) =>
    -- `(i as f32 / count_x as f32).floor() as i32 % 2 == 0`
    let row_even := (i / cx) % 2 = 0
    -- `usize::MAX` sentinels are modelled as `none`
    let left_hex_index : Option ℕ :=
      if row_even then (if i ≥ cx + 1 then some (i - (cx + 1)) else none)
      else (if i ≥ cx then some (i - cx) else none)
    let right_hex_index : Option ℕ :=
      if row_even then (if i ≥ cx then some (i - cx) else none)
      else (if i ≥ cx - 1 then some (i - (cx - 1)) else none)
    let top_hex_index : Option ℕ :=
      if i ≥ 2 * cx then some (i - 2 * cx) else none
    let is_left :=
      match left_hex_index with
      | some j => (pts.getD j none).isSome
      | none => false
    let is_right :=
      match right_hex_index with
      | some j => (pts.getD j none).isSome
      | none => false
    let is_top :=
      match top_hex_index with
      | some j => (pts.getD j none).isSome
      | none => false
    let cos60 : QS := QS.ofRat (1 / 2)
    let sin60 : QS := ⟨0, 1 / 2⟩
    let r : QS := QS.ofRat hex_radius
    let ps0 := st.1
    let pi0 : HexIdx := ⟨0, 0, 0, 0, 0, 0⟩
    -- `if !is_left && !is_top` : new top-left particle
    let ps1 := if !is_left && !is_top then
        ps0 ++ [Particle.new ⟨x - r * cos60, y - r * sin60⟩ 0 1] else ps0
    let pi1 := if !is_left && !is_top then { pi0 with i0 := ps1.length - 1 } else pi0
    -- `if !is_right && !is_top` : new top-right particle
    let ps2 := if !is_right && !is_top then
        ps1 ++ [Particle.new ⟨x + r * cos60, y - r * sin60⟩ 0 1] else ps1
    let pi2 := if !is_right && !is_top then { pi1 with i1 := ps2.length - 1 } else pi1
    -- `if !is_left` : new mid-left particle
    let ps3 := if !is_left then
        ps2 ++ [Particle.new ⟨x - r, y⟩ 0 1] else ps2
    let pi3 := if !is_left then { pi2 with i5 := ps3.length - 1 } else pi2
    -- `if !is_right` : new mid-right particle
    let ps4 := if !is_right then
        ps3 ++ [Particle.new ⟨x + r, y⟩ 0 1] else ps3
    let pi4 := if !is_right then { pi3 with i2 := ps4.length - 1 } else pi3
    -- inherited indices from already-visited neighbors (lines 565-583)
    let pi5 := if is_left then
        let l := getHexIdx st.2 (left_hex_index.getD 0)
        { pi4 with i5 := l.i3, i0 := l.i2 }
      else pi4
    let pi6 := if is_top then
        let t := getHexIdx st.2 (top_hex_index.getD 0)
        let base := if !is_left then { pi5 with i0 := t.i4 } else pi5
        { base with i1 := t.i3 }
      else pi5
    let pi7 := if is_right then
        let rt := getHexIdx st.2 (right_hex_index.getD 0)
        let base := if !is_top then { pi6 with i1 := rt.i5 } else pi6
        { base with i2 := rt.i4 }
      else pi6
    -- unconditionally placed bottom-left and bottom-right (lines 585-596)
    let ps5 := ps4 ++ [Particle.new ⟨x - r * cos60, y + r * sin60⟩ 0 1]
    let pi8 := { pi7 with i4 := ps5.length - 1 }
    let ps6 := ps5 ++ [Particle.new ⟨x + r * cos60, y + r * sin60⟩ 0 1]
    let pi9 := { pi8 with i3 := ps6.length - 1 }
    (ps6, st.2 ++ [some pi9])

/-- The whole particle-creation pass (main.rs lines 463-600), a fold of
`lattice_step` over the enumerated `hex_points`. -/
def build_particles (pts : List (Option (QS × QS))) (cx : ℕ)
    (hex_radius : ℚ) (init : List Particle) :
    List Particle × List (Option HexIdx) :=
  pts.enum.foldl (fun st p => lattice_step pts cx hex_radius st p.1 p.2)
    (init, [])

/-- The body of the tether-creation loop (main.rs lines 604-636) for one
grid slot.  State: the tether list so far and the `created_tethers`
`VecDeque` of ordered index pairs (front at the head).  Each of the 5
consecutive slot pairs gets a tether unless that ordered pair is in the
deque; afterwards the deque is popped once if longer than `2 * count_x`. -/
def tether_step (all_ps : List Particle) (stiffness damping_constant : QS)
    (cx : ℕ) (st : List Tether × List (ℕ × ℕ)) (pio : Option HexIdx) :
    List Tether × List (ℕ × ℕ) :=
  match pio with
  | none => st
  | some v =>
    let inner := [0, 1, 2, 3, 4].foldl
      (fun (st2 : List Tether × List (ℕ × ℕ)) hex_p_idx =>
        let pr := (v.get hex_p_idx, v.get (hex_p_idx + 1))
        if st2.2.contains pr then st2
        else
          (st2.1 ++ [Tether.new pr.1 pr.2 stiffness damping_constant all_ps],
            st2.2 ++ [pr]))
      st
    if inner.2.length > 2 * cx then (inner.1, inner.2.drop 1) else inner

/-- `create_particle_lattice` (main.rs line 425): appends the particles and
tethers of the lattice read off `create_canvas` to `physics_objects` (the
program clears `physics_objects` before each call). -/
def create_particle_lattice (create_canvas : Img) (physics_objects : Mesh)
    (hex_radius : ℚ) (stiffness damping_constant : QS) : Mesh :=
  let pts := hex_points create_canvas hex_radius
  let cx := count_x create_canvas hex_radius
  let built := build_particles pts cx hex_radius physics_objects.particles
  let ts := built.2.foldl
    (tether_step built.1 stiffness damping_constant cx)
    (physics_objects.tethers, [])
  ⟨built.1, ts.1⟩

/-! ### Flood fill (src/main.rs lines 257-301) -/

/-- In-bounds pixel coordinates. -/
def BPix (w h : ℕ) := { p : ℕ × ℕ // p.1 < w ∧ p.2 < h }

/-- `draw_pixel`: pointwise update of the pixel grid. -/
def setPix (pixf : ℕ → ℕ → Color) (p : ℕ × ℕ) (c : Color) : ℕ → ℕ → Color :=
  fun x y => if x = p.1 ∧ y = p.2 then c else pixf x y

/-- The four bounds-checked neighbor pushes (main.rs lines 288-299), in the
source's push order `(x+1,y), (x-1,y), (x,y+1), (x,y-1)`. -/
def nbrs (w h : ℕ) (p : BPix w h) : List (BPix w h) :=
  (if hx : p.val.1 + 1 < w then [⟨(p.val.1 + 1, p.val.2), hx, p.prop.2⟩] else [])
    ++ (if hx0 : 0 < p.val.1 then
        [⟨(p.val.1 - 1, p.val.2),
          Nat.lt_of_le_of_lt (Nat.sub_le _ _) p.prop.1, p.prop.2⟩] else [])
    ++ (if hy : p.val.2 + 1 < h then [⟨(p.val.1, p.val.2 + 1), p.prop.1, hy⟩] else [])
    ++ (if hy0 : 0 < p.val.2 then
        [⟨(p.val.1, p.val.2 - 1), p.prop.1,
          Nat.lt_of_le_of_lt (Nat.sub_le _ _) p.prop.2⟩] else [])

/-- Termination measure for the fill loop: five times the number of
in-bounds pixels still holding `start_color`, plus the frontier size. -/
def fillMeasure (w h : ℕ) (sc : Color) (pixf : ℕ → ℕ → Color)
    (F : List (BPix w h)) : ℕ :=
  5 * ((Finset.range w ×ˢ Finset.range h).filter
    (fun q => pixf q.1 q.2 = sc)).card + F.length

theorem filter_setPix_erase (w h : ℕ) (sc fc : Color) (hne : sc ≠ fc)
    (pixf : ℕ → ℕ → Color) (p : ℕ × ℕ) :
    (Finset.range w ×ˢ Finset.range h).filter
        (fun q => setPix pixf p fc q.1 q.2 = sc)
      = ((Finset.range w ×ˢ Finset.range h).filter
        (fun q => pixf q.1 q.2 = sc)).erase p := by
  ext q
  simp only [Finset.mem_filter, Finset.mem_erase, Finset.mem_product,
    Finset.mem_range, setPix]
  constructor
  · intro ⟨hq, hcol⟩
    by_cases hqp : q.1 = p.1 ∧ q.2 = p.2
    · rw [if_pos hqp] at hcol; exact absurd hcol.symm hne
    · rw [if_neg hqp] at hcol
      refine ⟨fun he => hqp ⟨by rw [he], by rw [he]⟩, hq, hcol⟩
  · intro ⟨hqp, hq, hcol⟩
    refine ⟨hq, ?_⟩
    rw [if_neg (fun hc => hqp (Prod.ext hc.1 hc.2))]
    exact hcol

theorem fillMeasure_recolor (w h : ℕ) (sc fc : Color) (hne : sc ≠ fc)
    (pixf : ℕ → ℕ → Color) (p : BPix w h) (rest : List (BPix w h))
    (hsc : pixf p.val.1 p.val.2 = sc) :
    fillMeasure w h sc (setPix pixf p.val fc) ((nbrs w h p).reverse ++ rest) <
      fillMeasure w h sc pixf (p :: rest) := by
  have hmem : p.val ∈ (Finset.range w ×ˢ Finset.range h).filter
      (fun q => pixf q.1 q.2 = sc) := by
    simp only [Finset.mem_filter, Finset.mem_product, Finset.mem_range]
    exact ⟨⟨p.prop.1, p.prop.2⟩, hsc⟩
  have hcard : ((Finset.range w ×ˢ Finset.range h).filter
      (fun q => setPix pixf p.val fc q.1 q.2 = sc)).card
      = ((Finset.range w ×ˢ Finset.range h).filter
        (fun q => pixf q.1 q.2 = sc)).card - 1 := by
    rw [filter_setPix_erase w h sc fc hne, Finset.card_erase_of_mem hmem]
  have hpos : 1 ≤ ((Finset.range w ×ˢ Finset.range h).filter
      (fun q => pixf q.1 q.2 = sc)).card :=
    Finset.card_pos.mpr ⟨p.val, hmem⟩
  have hlen : (nbrs w h p).length ≤ 4 := by
    unfold nbrs
    split <;> split <;> split <;> split <;> simp
  unfold fillMeasure
  rw [hcard]
  simp only [List.length_append, List.length_reverse, List.length_cons]
  omega

/-- The fill loop (main.rs lines 274-300): pop the head of the frontier, skip
it if it no longer holds `start_color`, otherwise recolor it and push its
in-bounds 4-neighbors.  The frontier is kept in stack order (head = next
pop), so the pushed block is `(nbrs ..).reverse`.  The argument `hne` is the
`start_color == fill_color` early return performed by the caller, which is
exactly what makes the loop terminate. -/
def flood_go (w h : ℕ) (sc fc : Color) (hne : sc ≠ fc)
    (pixf : ℕ → ℕ → Color) (F : List (BPix w h)) : ℕ → ℕ → Color :=
  match F with
  | [] => pixf
  | p :: rest =>
    if pixf p.val.1 p.val.2 ≠ sc then flood_go w h sc fc hne pixf rest
    else flood_go w h sc fc hne (setPix pixf p.val fc)
      ((nbrs w h p).reverse ++ rest)
termination_by fillMeasure w h sc pixf F
decreasing_by
  · unfold fillMeasure
    simp only [List.length_cons]
    omega
  · exact fillMeasure_recolor w h sc fc hne pixf p rest (by
      rename_i hcol
      exact not_not.mp hcol)

/-- `flood_fill` (main.rs line 257).  Reading the start pixel out of bounds
is a panic (`none`); `start_color == fill_color` is the early no-op
return. -/
def flood_fill (create_canvas : Img) (start_pos : ℕ × ℕ)
    (fill_color : Color) : Option Img :=
  if hb : start_pos.1 < create_canvas.w ∧ start_pos.2 < create_canvas.h then
    let start_color := create_canvas.pix start_pos.1 start_pos.2
    if hc : start_color = fill_color then some create_canvas
    else
      some ⟨create_canvas.w, create_canvas.h,
        flood_go create_canvas.w create_canvas.h start_color fill_color hc
          create_canvas.pix [⟨start_pos, hb⟩]⟩
  else none

/-! ### Spec-modelled variants and concrete instances used by the claims -/

/-- Modelled from the spec (§4.3 `step` and §5): the accumulate-then-integrate
order that claim C1 asserts — first every tether accumulates its forces into
the particles, only then every particle integrates.  Defined solely to compare
with `update_physics`, which performs the two phases in the opposite order. -/
def spec_update_physics (physics_objects : Mesh) (dt : QS) : Option Mesh :=
  match physics_objects.tethers.foldlM (fun arr t => Tether.update t dt arr)
      physics_objects.particles with
  | none => none
  | some ps' => some ⟨ps'.map (Particle.update dt), physics_objects.tethers⟩

/-- Modelled from the spec (§4.2 step 1-2, claim C7): the candidate-center
grid with horizontal pitch `3·r`, vertical pitch `dy = r·√3` (the claimed
value; the code uses `r·√3/2`), odd rows offset by `1.5·r`, a slot placed
iff the bitmap pixel at its center equals `DRAW_COLOR`. -/
def spec_hex_points (create_canvas : Img) (hex_radius : ℚ) :
    List (Option (QS × QS)) :=
  let cx := QS.toU32 (QS.ofRat (((create_canvas.w : ℚ) - 1) / (hex_radius * 3)))
  let cy := QS.toU32 (QS.ofRat ((create_canvas.h : ℚ) - 1) / ⟨0, hex_radius⟩)
  (List.range cy).flatMap (fun (row_i : ℕ) =>
    (List.range cx).map (fun (column_i : ℕ) =>
      let left_pad : ℚ := 3 / 2 * hex_radius * (row_i % 2 : ℕ)
      let x : QS := QS.ofRat (left_pad + hex_radius * 3 * (column_i : ℚ))
      let y : QS := ⟨0, hex_radius * (row_i : ℚ)⟩
      if create_canvas.pix (QS.toU32 x) (QS.toU32 y) = DRAW_COLOR then
        some (x, y)
      else none))

/-- 4-connectivity of pixels (no diagonals). -/
def adjacent (p q : ℕ × ℕ) : Prop :=
  (p.1 = q.1 ∧ (p.2 + 1 = q.2 ∨ q.2 + 1 = p.2)) ∨
  (p.2 = q.2 ∧ (p.1 + 1 = q.1 ∨ q.1 + 1 = p.1))

/-- One step into an in-bounds pixel of color `sc` under coloring `c`. -/
def regionStep (w h : ℕ) (c : ℕ → ℕ → Color) (sc : Color) (p q : ℕ × ℕ) :
    Prop :=
  adjacent p q ∧ q.1 < w ∧ q.2 < h ∧ c q.1 q.2 = sc

/-- The 4-connected region of `start` through pixels of color `sc`. -/
def Region (w h : ℕ) (c : ℕ → ℕ → Color) (sc : Color) (start p : ℕ × ℕ) :
    Prop :=
  Relation.ReflTransGen (regionStep w h c sc) start p

/-- 13×7 bitmap with one painted candidate center: the single hexagon at
grid slot (row 0, col 0) for hex radius 2. -/
def bm_one_hex : Img :=
  ⟨13, 7, fun x y => if x = 0 ∧ y = 0 then DRAW_COLOR else (0, 0, 0, 0)⟩

/-- 13×7 bitmap painting the centers of grid slots (row 0, col 0) and
(row 2, col 0) for hex radius 2 — two vertically adjacent hexagons (the
center of slot (2,0) is `(0, 2√3)`, whose pixel is `(0, 3)`). -/
def bm_two_hexes : Img :=
  ⟨13, 7, fun x y =>
    if (x = 0 ∧ y = 0) ∨ (x = 0 ∧ y = 3) then DRAW_COLOR else (0, 0, 0, 0)⟩

/-- 13×7 bitmap painting the centers of grid slots (row 0, col 0),
(row 0, col 1) and (row 2, col 0) for hex radius 2.  Slot (2,0) has
linear index 4 and `count_x = 2`, so its even-row "top-left neighbor" index
computes to `4 - (2+1) = 1` — grid slot (row 0, col 1), a hexagon far to
the right that shares no boundary with it. -/
def bm_three_hexes : Img :=
  ⟨13, 7, fun x y =>
    if (x = 0 ∧ y = 0) ∨ (x = 6 ∧ y = 0) ∨ (x = 0 ∧ y = 3) then DRAW_COLOR
    else (0, 0, 0, 0)⟩

/-- Two particles at rest at distance 2 joined by a tether with rest length
1 (stretched), stiffness 1, damping 0. -/
def m_stretched : Mesh :=
  ⟨[Particle.new ⟨⟨0, 0⟩, ⟨0, 0⟩⟩ 0 1, Particle.new ⟨⟨2, 0⟩, ⟨0, 0⟩⟩ 0 1],
    [⟨0, 1, 1, 0, 1⟩]⟩

/-- The state `update_physics m_stretched 1` actually produces: positions
and velocities untouched (the integration phase ran on zero accumulated
force), net forces `∓13/2` accumulated by the tether phase for the next
step. -/
def m_stretched_next : Mesh :=
  ⟨[⟨⟨⟨0, 0⟩, ⟨0, 0⟩⟩, ⟨⟨0, 0⟩, ⟨0, 0⟩⟩, ⟨⟨0, 0⟩, ⟨0, 0⟩⟩, 1,
      ⟨⟨-13/2, 0⟩, ⟨0, 0⟩⟩, 0xf2df50⟩,
    ⟨⟨⟨2, 0⟩, ⟨0, 0⟩⟩, ⟨⟨0, 0⟩, ⟨0, 0⟩⟩, ⟨⟨0, 0⟩, ⟨0, 0⟩⟩, 1,
      ⟨⟨13/2, 0⟩, ⟨0, 0⟩⟩, 0xf2df50⟩],
    [⟨0, 1, 1, 0, 1⟩]⟩

attribute [local semireducible] Rat.add Rat.mul Rat.inv Rat.sub Rat.ofScientific

/-! ### Helper lemmas -/

theorem set_getD_self {α : Type} :
    ∀ (l : List α) (n : ℕ) (d : α), n < l.length → l.set n (l.getD n d) = l
  | [], n, _, h => by simp at h
  | a :: l, 0, d, _ => rfl
  | a :: l, n + 1, d, h => by
    simp only [List.set_cons_succ, List.cons.injEq, true_and]
    have : (a :: l).getD (n + 1) d = l.getD n d := by simp [List.getD]
    rw [this, set_getD_self l n d (by simpa using h)]

theorem apply_force_position (p : Particle) (f : V2) :
    (p.apply_force f).position = p.position := rfl

theorem apply_force_velocity (p : Particle) (f : V2) :
    (p.apply_force f).velocity = p.velocity := rfl

theorem apply_force_acceleration (p : Particle) (f : V2) :
    (p.apply_force f).acceleration = p.acceleration := rfl

theorem apply_force_mass (p : Particle) (f : V2) :
    (p.apply_force f).mass = p.mass := rfl

theorem apply_force_color (p : Particle) (f : V2) :
    (p.apply_force f).color = p.color := rfl

theorem map_set_set_apply_force {β : Type} (ps : List Particle) (i j : ℕ)
    (F1 F2 : V2) (hi : i < ps.length) (hj : j < ps.length)
    (f : Particle → β) (hf : ∀ p F, f (p.apply_force F) = f p) :
    ((ps.set i ((ps.getD i default).apply_force F1)).set j
      ((ps.getD j default).apply_force F2)).map f = ps.map f := by
  rw [List.map_set, List.map_set, hf, hf,
    show f (ps.getD i default) = (ps.map f).getD i (f default)
      from (List.getD_map ps default f).symm,
    show f (ps.getD j default) = (ps.map f).getD j (f default)
      from (List.getD_map ps default f).symm,
    set_getD_self _ _ _ (by simpa using hi)]
  exact set_getD_self _ _ _ (by simpa using hj)

/-- `Tether::update` only touches the two endpoint particles' accumulated
forces: every other particle field, and the list length, are unchanged. -/
theorem tether_update_kin {t : Tether} {dt : QS} {ps qs : List Particle}
    (h : Tether.update t dt ps = some qs) :
    qs.length = ps.length ∧
    qs.map Particle.position = ps.map Particle.position ∧
    qs.map Particle.velocity = ps.map Particle.velocity ∧
    qs.map Particle.acceleration = ps.map Particle.acceleration ∧
    qs.map Particle.mass = ps.map Particle.mass ∧
    qs.map Particle.color = ps.map Particle.color := by
  unfold Tether.update at h
  split at h
  · exact absurd h (by simp)
  · split at h
    · exact absurd h (by simp)
    · rename_i hne hmax
      have h1 : t.p1_index < ps.length := by omega
      have h2 : t.p2_index < ps.length := by omega
      have hq := (Option.some_inj.mp h).symm
      subst hq
      refine ⟨by simp, ?_, ?_, ?_, ?_, ?_⟩
      · exact map_set_set_apply_force ps _ _ _ _ h1 h2 Particle.position
          (fun _ _ => rfl)
      · exact map_set_set_apply_force ps _ _ _ _ h1 h2 Particle.velocity
          (fun _ _ => rfl)
      · exact map_set_set_apply_force ps _ _ _ _ h1 h2 Particle.acceleration
          (fun _ _ => rfl)
      · exact map_set_set_apply_force ps _ _ _ _ h1 h2 Particle.mass
          (fun _ _ => rfl)
      · exact map_set_set_apply_force ps _ _ _ _ h1 h2 Particle.color
          (fun _ _ => rfl)

/-- The tether-force fold of `update_physics` never changes positions,
velocities, accelerations, masses or colors. -/
theorem tether_foldl_kin {dt : QS} :
    ∀ (ts : List Tether) (ps qs : List Particle),
    ts.foldlM (fun arr t => Tether.update t dt arr) ps = some qs →
    qs.length = ps.length ∧
    qs.map Particle.position = ps.map Particle.position ∧
    qs.map Particle.velocity = ps.map Particle.velocity ∧
    qs.map Particle.acceleration = ps.map Particle.acceleration ∧
    qs.map Particle.mass = ps.map Particle.mass ∧
    qs.map Particle.color = ps.map Particle.color := by
  intro ts
  induction ts with
  | nil =>
    intro ps qs h
    simp only [List.foldlM_nil, pure, Option.some_inj] at h
    subst h
    exact ⟨rfl, rfl, rfl, rfl, rfl, rfl⟩
  | cons t ts ih =>
    intro ps qs h
    rw [List.foldlM_cons] at h
    cases hu : Tether.update t dt ps with
    | none => rw [hu] at h; exact absurd h (by simp)
    | some ps' =>
      rw [hu] at h
      simp only [Option.bind_eq_bind, Option.some_bind] at h
      obtain ⟨l1, e1, e2, e3, e4, e5⟩ := tether_update_kin hu
      obtain ⟨l2, f1, f2, f3, f4, f5⟩ := ih ps' qs h
      exact ⟨l2.trans l1, f1.trans e1, f2.trans e2, f3.trans e3,
        f4.trans e4, f5.trans e5⟩

theorem tether_update_isSome (t : Tether) (dt : QS) (ps : List Particle)
    (hne : t.p1_index ≠ t.p2_index) (h1 : t.p1_index < ps.length)
    (h2 : t.p2_index < ps.length) : (Tether.update t dt ps).isSome := by
  unfold Tether.update
  rw [if_neg hne, if_neg (by omega)]
  rfl

theorem tether_foldl_isSome {dt : QS} :
    ∀ (ts : List Tether) (ps : List Particle),
    (∀ t ∈ ts, t.p1_index ≠ t.p2_index ∧ t.p1_index < ps.length ∧
      t.p2_index < ps.length) →
    (ts.foldlM (fun arr t => Tether.update t dt arr) ps).isSome := by
  intro ts
  induction ts with
  | nil => intro ps _; rfl
  | cons t ts ih =>
    intro ps hts
    obtain ⟨hne, h1, h2⟩ := hts t (List.mem_cons_self t ts)
    have hs := tether_update_isSome t dt ps hne h1 h2
    obtain ⟨ps', hps'⟩ := Option.isSome_iff_exists.mp hs
    rw [List.foldlM_cons, hps']
    simp only [Option.bind_eq_bind, Option.some_bind]
    have hlen : ps'.length = ps.length := (tether_update_kin hps').1
    exact ih ps' (fun u hu => by
      obtain ⟨a, b, c⟩ := hts u (List.mem_cons_of_mem _ hu)
      exact ⟨a, hlen ▸ b, hlen ▸ c⟩)

theorem tether_foldl_none {dt : QS} :
    ∀ (ts : List Tether) (ps : List Particle),
    (∃ t ∈ ts, t.p1_index = t.p2_index) →
    ts.foldlM (fun arr t => Tether.update t dt arr) ps = none := by
  intro ts
  induction ts with
  | nil => intro ps h; simp at h
  | cons t ts ih =>
    intro ps h
    rw [List.foldlM_cons]
    obtain ⟨u, hu, hequ⟩ := h
    rcases List.mem_cons.mp hu with rfl | humem
    · rw [show Tether.update u dt ps = none from by
        unfold Tether.update; rw [if_pos hequ]]
      rfl
    · cases hv : Tether.update t dt ps with
      | none => rfl
      | some ps' =>
        simp only [Option.bind_eq_bind, Option.some_bind]
        exact ih ps' ⟨u, humem, hequ⟩

/-! ### Claim theorems -/

/-- C9: processing a tether whose two endpoint indices are equal aborts the
operation — `Tether::update` hits the `panic!` arm (`none`), and a physics
step over a mesh containing such a tether fails as a whole rather than
absorbing it; while for every tether with distinct in-bounds endpoint
indices the abort branch is unreachable (`Tether::update` succeeds). -/
theorem c9_tether_abort :
    (∀ (t : Tether) (dt : QS) (ps : List Particle),
      t.p1_index = t.p2_index → Tether.update t dt ps = none) ∧
    (∀ (m : Mesh) (dt : QS),
      (∃ t ∈ m.tethers, t.p1_index = t.p2_index) →
      update_physics m dt = none) ∧
    (∀ (t : Tether) (dt : QS) (ps : List Particle),
      t.p1_index ≠ t.p2_index → t.p1_index < ps.length →
      t.p2_index < ps.length → (Tether.update t dt ps).isSome) := by
  refine ⟨?_, ?_, ?_⟩
  · intro t dt ps heq
    unfold Tether.update
    rw [if_pos heq]
  · intro m dt hbad
    unfold update_physics
    show (match List.foldlM (fun arr t => Tether.update t dt arr)
        (List.map (Particle.update dt) m.particles) m.tethers with
      | none => none
      | some ps' => some (⟨ps', m.tethers⟩ : Mesh)) = none
    rw [tether_foldl_none m.tethers _ hbad]
  · exact tether_update_isSome

/-- Witness for C9 at concrete inputs: the degenerate tether `(0,0)` aborts
both the single update and the whole step, and the tether `(0,1)` over two
particles takes the non-abort branch. -/
theorem c9_witness :
    Tether.update ⟨0, 0, 1, 0, 1⟩ 1 [] = none ∧
    update_physics ⟨[], [⟨0, 0, 1, 0, 1⟩]⟩ 1 = none ∧
    (Tether.update ⟨0, 1, 1, 0, 1⟩ 1 m_stretched.particles).isSome :=
  ⟨c9_tether_abort.1 ⟨0, 0, 1, 0, 1⟩ 1 [] rfl,
    c9_tether_abort.2.1 ⟨[], [⟨0, 0, 1, 0, 1⟩]⟩ 1
      ⟨⟨0, 0, 1, 0, 1⟩, List.mem_cons_self _ _, rfl⟩,
    c9_tether_abort.2.2 ⟨0, 1, 1, 0, 1⟩ 1 m_stretched.particles
      (by decide) (by decide) (by decide)⟩

/-- C10: `apply_force_from_point` modifies only the particles' accumulated
net forces — the tether collection, the particle count, and every
particle's position, velocity, acceleration, mass and color are unchanged. -/
theorem c10_point_force_frame (m : Mesh) (point : V2) (strength : QS) :
    (apply_force_from_point m point strength).tethers = m.tethers ∧
    (apply_force_from_point m point strength).particles.length
      = m.particles.length ∧
    (apply_force_from_point m point strength).particles.map Particle.position
      = m.particles.map Particle.position ∧
    (apply_force_from_point m point strength).particles.map Particle.velocity
      = m.particles.map Particle.velocity ∧
    (apply_force_from_point m point strength).particles.map
        Particle.acceleration
      = m.particles.map Particle.acceleration ∧
    (apply_force_from_point m point strength).particles.map Particle.mass
      = m.particles.map Particle.mass ∧
    (apply_force_from_point m point strength).particles.map Particle.color
      = m.particles.map Particle.color := by
  refine ⟨rfl, by simp [apply_force_from_point], ?_, ?_, ?_, ?_, ?_⟩ <;>
  · unfold apply_force_from_point
    simp only [List.map_map]
    exact List.map_congr_left (fun p _ => rfl)

/-- C5 (failing-input evaluation): for a particle at `(10,0)`, force point
`(0,0)` and strength `+1000`, the added force is `(+10, 0)` — its
x-component is positive, i.e. the force points away from the point
(repulsion), where the claim (and the program's own on-screen help text,
which labels the negative-strength right-click "repulse") requires positive
strength to attract, i.e. a negative x-component. -/
theorem c5_positive_strength_repels :
    (apply_force_from_point ⟨[Particle.new ⟨⟨10, 0⟩, ⟨0, 0⟩⟩ 0 1], []⟩
        ⟨⟨0, 0⟩, ⟨0, 0⟩⟩ ⟨1000, 0⟩).particles.map Particle.net_force
      = [⟨⟨10, 0⟩, ⟨0, 0⟩⟩] := by decide

/-- C1 (amended): a physics step is still a two-phase composition, never
interleaved, but in the opposite order to the claim — `update_physics` first
updates every particle's velocity and position from the net force
accumulated *before* the step (resetting the accumulators), and only then
accumulates the tether forces, which therefore influence only later steps.
Formally: whenever the step succeeds, the resulting positions, velocities
and accelerations are exactly the integration formulas applied to the
pre-step particle states — independent of the tether collection — and the
tether collection itself is returned unchanged. -/
theorem c1_two_phase_integrate_then_accumulate (m : Mesh) (dt : QS)
    (m' : Mesh) (h : update_physics m dt = some m') :
    m'.tethers = m.tethers ∧
    m'.particles.length = m.particles.length ∧
    m'.particles.map Particle.position
      = m.particles.map (fun p => p.position +
          V2.smul dt (p.velocity + V2.smul dt (V2.sdiv p.net_force p.mass))) ∧
    m'.particles.map Particle.velocity
      = m.particles.map (fun p =>
          p.velocity + V2.smul dt (V2.sdiv p.net_force p.mass)) ∧
    m'.particles.map Particle.acceleration
      = m.particles.map (fun p => V2.sdiv p.net_force p.mass) ∧
    m'.particles.map Particle.mass = m.particles.map Particle.mass := by
  unfold update_physics at h
  revert h
  show (match List.foldlM (fun arr t => Tether.update t dt arr)
      (List.map (Particle.update dt) m.particles) m.tethers with
    | none => none
    | some ps' => some (⟨ps', m.tethers⟩ : Mesh)) = some m' → _
  cases hf : List.foldlM (fun arr t => Tether.update t dt arr)
      (List.map (Particle.update dt) m.particles) m.tethers with
  | none => intro h; exact absurd h (by simp)
  | some ps' =>
    intro h
    have hm' : m' = ⟨ps', m.tethers⟩ := (Option.some_inj.mp h).symm
    subst hm'
    obtain ⟨l1, e1, e2, e3, e4, _⟩ := tether_foldl_kin m.tethers _ _ hf
    refine ⟨rfl, by simpa using l1, ?_, ?_, ?_, ?_⟩
    · rw [show Mesh.particles ⟨ps', m.tethers⟩ = ps' from rfl, e1,
        List.map_map]
      exact List.map_congr_left (fun p _ => rfl)
    · rw [show Mesh.particles ⟨ps', m.tethers⟩ = ps' from rfl, e2,
        List.map_map]
      exact List.map_congr_left (fun p _ => rfl)
    · rw [show Mesh.particles ⟨ps', m.tethers⟩ = ps' from rfl, e3,
        List.map_map]
      exact List.map_congr_left (fun p _ => rfl)
    · rw [show Mesh.particles ⟨ps', m.tethers⟩ = ps' from rfl, e4,
        List.map_map]
      exact List.map_congr_left (fun p _ => rfl)

/-- Witness for C1 at a concrete input: the stretched two-particle mesh.
The step succeeds, and per the amended claim its positions and velocities
are unchanged (they integrated the zero pre-step net force) even though the
tether is stretched — the tether force lands in the accumulators only. -/
theorem c1_witness :
    update_physics m_stretched 1 = some m_stretched_next ∧
    (m_stretched_next.tethers = m_stretched.tethers ∧
      m_stretched_next.particles.length = m_stretched.particles.length ∧
      m_stretched_next.particles.map Particle.position
        = m_stretched.particles.map (fun p => p.position +
            V2.smul 1 (p.velocity + V2.smul 1 (V2.sdiv p.net_force p.mass))) ∧
      m_stretched_next.particles.map Particle.velocity
        = m_stretched.particles.map (fun p =>
            p.velocity + V2.smul 1 (V2.sdiv p.net_force p.mass)) ∧
      m_stretched_next.particles.map Particle.acceleration
        = m_stretched.particles.map (fun p => V2.sdiv p.net_force p.mass) ∧
      m_stretched_next.particles.map Particle.mass
        = m_stretched.particles.map Particle.mass) :=
  ⟨by decide, c1_two_phase_integrate_then_accumulate m_stretched 1
    m_stretched_next (by decide)⟩

/-- C1 (counterexample): on the stretched two-particle mesh, the step the
code takes differs from the claimed accumulate-then-integrate composition
(`spec_update_physics`): the code leaves both positions unchanged while the
claimed order would already move them. -/
theorem c1_counterexample :
    update_physics m_stretched 1 ≠ spec_update_physics m_stretched 1 ∧
    (update_physics m_stretched 1).map (fun m => m.particles.map Particle.position)
      = some [⟨0, 0⟩, ⟨2, 0⟩] ∧
    (spec_update_physics m_stretched 1).map
        (fun m => m.particles.map Particle.position)
      = some [⟨⟨-13/2, 0⟩, 0⟩, ⟨⟨17/2, 0⟩, 0⟩] := by
  refine ⟨by decide, by decide, by decide⟩

@[simp] theorem V2.mk_zero_zero : (⟨0, 0⟩ : V2) = 0 := rfl

@[simp] theorem V2.zero_add_left (v : V2) : 0 + v = v := by
  apply V2.vext <;> simp

@[simp] theorem V2.smul_zero_right (s : QS) : V2.smul s 0 = 0 := by
  apply V2.vext <;> simp [V2.smul]

@[simp] theorem V2.sdiv_zero_left (s : QS) : V2.sdiv 0 s = 0 := by
  apply V2.vext <;> simp [V2.sdiv]

@[simp] theorem V2.add_zero_right (v : V2) : v + 0 = v := by
  apply V2.vext <;> simp

@[simp] theorem V2.hmul_zero_left (w : V2) : V2.hmul 0 w = 0 := by
  apply V2.vext <;> simp [V2.hmul]

@[simp] theorem V2.adds_zero (s : QS) : V2.adds s 0 = ⟨s, s⟩ := by
  apply V2.vext <;> simp [V2.adds]

theorem particle_update_rest (dt : QS) (p : V2) :
    Particle.update dt (Particle.new p 0 1) = Particle.new p 0 1 := by
  unfold Particle.update Particle.new
  simp


/-- C6: a two-particle mesh joined by one tether, starting at rest
separated by exactly the tether's rest length (the tether is built by
`Tether::new` on the current positions), with damping 0 and stiffness
`k > 0`, is left with unchanged positions by a first physics step, and the
accumulated net forces are zero because the force law evaluates to 0 at
`dx = 0`. -/
theorem c6_equilibrium_step (pos1 pos2 : V2) (k : ℚ) (hk : 0 < k) (dt : QS)
    (hL : V2.length (pos2 - pos1) ≠ 0) :
    ∃ m', update_physics
        ⟨[Particle.new pos1 0 1, Particle.new pos2 0 1],
          [Tether.new 0 1 (QS.ofRat k) 0
            [Particle.new pos1 0 1, Particle.new pos2 0 1]]⟩ dt = some m' ∧
      m'.particles.map Particle.position = [pos1, pos2] ∧
      m'.particles.map Particle.net_force = [0, 0] := by
  have hf : ∀ L : QS, L ≠ 0 →
      -(QS.ofRat k) * (L - L) - 10 * (L * (L - L) + L - (L - L)) / ((L - L) + L) ^ 2
        + 10 / L = 0 := by
    intro L hL0
    field_simp
    ring
  have hT : Tether.update
      (Tether.new 0 1 (QS.ofRat k) 0 [Particle.new pos1 0 1, Particle.new pos2 0 1]) dt
      [Particle.new pos1 0 1, Particle.new pos2 0 1]
      = some [Particle.new pos1 0 1, Particle.new pos2 0 1] := by
    unfold Tether.update Tether.new
    simp only [List.getD, List.get?, Option.getD_some, Particle.new]
    rw [if_neg (by decide), if_neg (by simp)]
    rw [hf ((pos2 - pos1).length) hL]
    simp [V2.adds, V2.hmul, V2.smul, Particle.apply_force]
  unfold update_physics
  rw [show List.map (Particle.update dt)
      (⟨[Particle.new pos1 0 1, Particle.new pos2 0 1],
        [Tether.new 0 1 (QS.ofRat k) 0
          [Particle.new pos1 0 1, Particle.new pos2 0 1]]⟩ : Mesh).particles
    = [Particle.new pos1 0 1, Particle.new pos2 0 1] from by
      simp [particle_update_rest]]
  simp only [List.foldlM_cons, List.foldlM_nil, hT, Option.bind_eq_bind,
    Option.some_bind]
  exact ⟨_, rfl, by simp [Particle.new], by simp [Particle.new]⟩

/-- Witness for C6 at a concrete input: particles at `(0,0)` and `(1,0)`,
stiffness `1`, `dt = 1`. -/
theorem c6_witness :
    (0 : ℚ) < 1 ∧ V2.length ((⟨⟨1, 0⟩, ⟨0, 0⟩⟩ : V2) - ⟨⟨0, 0⟩, ⟨0, 0⟩⟩) ≠ 0 ∧
    (∃ m', update_physics
        ⟨[Particle.new ⟨⟨0, 0⟩, ⟨0, 0⟩⟩ 0 1, Particle.new ⟨⟨1, 0⟩, ⟨0, 0⟩⟩ 0 1],
          [Tether.new 0 1 (QS.ofRat 1) 0
            [Particle.new ⟨⟨0, 0⟩, ⟨0, 0⟩⟩ 0 1,
              Particle.new ⟨⟨1, 0⟩, ⟨0, 0⟩⟩ 0 1]]⟩ 1 = some m' ∧
      m'.particles.map Particle.position = [⟨⟨0, 0⟩, ⟨0, 0⟩⟩, ⟨⟨1, 0⟩, ⟨0, 0⟩⟩] ∧
      m'.particles.map Particle.net_force = [0, 0]) :=
  ⟨by norm_num, by decide,
    c6_equilibrium_step ⟨⟨0, 0⟩, ⟨0, 0⟩⟩ ⟨⟨1, 0⟩, ⟨0, 0⟩⟩ 1 (by norm_num) 1
      (by decide)⟩

/-- C3 (failing-input evaluation): on `bm_two_hexes` (two vertically
adjacent placed hexagons, grid slots 0 and 4) the builder creates the shared
edge twice.  The upper hexagon (vertex indices ⟨0,1,3,5,4,2⟩) walks its
bottom edge as the ordered pair `(5,4)` (slot pair bottom-right →
bottom-left); the lower hexagon inherits those particles as its top-left /
top-right vertices and walks the same edge as `(4,5)` (top-left →
top-right).  The `VecDeque::contains` dedup compares *ordered* pairs, so the
reversed orientation is missed and the unordered pair `{4,5}` gets two
tethers, refuting "no two tethers reference the same unordered pair". -/
theorem c3_duplicate_unordered_pair :
    (create_particle_lattice bm_two_hexes ⟨[], []⟩ 2 10000 0).tethers.map
        (fun t => (t.p1_index, t.p2_index))
      = [(0, 1), (1, 3), (3, 5), (5, 4), (4, 2),
          (4, 5), (5, 7), (7, 9), (9, 8), (8, 6)] ∧
    ((create_particle_lattice bm_two_hexes ⟨[], []⟩ 2 10000 0).tethers.filter
        (fun t => (t.p1_index == 4 && t.p2_index == 5) ||
          (t.p1_index == 5 && t.p2_index == 4))).length = 2 := by
  refine ⟨by decide, by decide⟩

/-- C4 (failing-input evaluation): a single placed hexagon (`bm_one_hex`).
Its vertex indices are ⟨0,1,3,5,4,2⟩ (slots: top-left, top-right,
mid-right, bottom-right, bottom-left, mid-left).  The tether loop walks
only the 5 consecutive slot pairs `(i, i+1)`, `i < 5`; the sixth boundary
edge — mid-left (particle 2) to top-left (particle 0), which for a hexagon
with no top-left neighbor is inherited from nobody — is never created: the
mesh has exactly 5 tethers and none references the unordered pair `{0,2}`. -/
theorem c4_missing_sixth_edge :
    (build_particles (hex_points bm_one_hex 2) (count_x bm_one_hex 2) 2
        []).2.getD 0 none = some ⟨0, 1, 3, 5, 4, 2⟩ ∧
    (create_particle_lattice bm_one_hex ⟨[], []⟩ 2 10000 0).tethers.map
        (fun t => (t.p1_index, t.p2_index))
      = [(0, 1), (1, 3), (3, 5), (5, 4), (4, 2)] ∧
    ((create_particle_lattice bm_one_hex ⟨[], []⟩ 2 10000 0).tethers.filter
        (fun t => (t.p1_index == 0 && t.p2_index == 2) ||
          (t.p1_index == 2 && t.p2_index == 0))).length = 0 := by
  refine ⟨by decide, by decide, by decide⟩

/-- C2 (failing-input evaluation): `bm_three_hexes` places hexagons at grid
slots 0 (row 0, col 0), 1 (row 0, col 1) and 4 (row 2, col 0);
`count_x = 2`.  Slots 0 and 4 are vertically adjacent and share the corner
`(-1, √3)` (= slot-4's top-left vertex = slot-0's bottom-left vertex, which
is particle 4).  But slot 4's "top-left neighbor" index is computed as
`4 - (count_x + 1) = 1` with no column-wraparound guard, so the placed but
non-adjacent hexagon at slot 1 makes `is_left` true and slot 4 reuses that
hexagon's mid-right particle — index 9, located at `(8, 0)` — as its
top-left vertex.  The two boundary-sharing hexagons therefore reference
different particle indices (9 vs 4) for the same geometric corner. -/
theorem c2_shared_corner_distinct_indices :
    (hex_points bm_three_hexes 2).getD 0 none = some (⟨0, 0⟩, ⟨0, 0⟩) ∧
    (hex_points bm_three_hexes 2).getD 4 none = some (⟨0, 0⟩, ⟨0, 2⟩) ∧
    (build_particles (hex_points bm_three_hexes 2) (count_x bm_three_hexes 2)
        2 []).2.getD 0 none = some ⟨0, 1, 3, 5, 4, 2⟩ ∧
    (build_particles (hex_points bm_three_hexes 2) (count_x bm_three_hexes 2)
        2 []).2.getD 4 none = some ⟨9, 5, 12, 14, 13, 11⟩ ∧
    ((build_particles (hex_points bm_three_hexes 2) (count_x bm_three_hexes 2)
        2 []).1.getD 4 default).position = ⟨⟨-1, 0⟩, ⟨0, 1⟩⟩ ∧
    (⟨(⟨0, 0⟩ : QS) - QS.ofRat 2 * QS.ofRat (1/2),
        (⟨0, 2⟩ : QS) - QS.ofRat 2 * ⟨0, 1/2⟩⟩ : V2) = ⟨⟨-1, 0⟩, ⟨0, 1⟩⟩ ∧
    ((build_particles (hex_points bm_three_hexes 2) (count_x bm_three_hexes 2)
        2 []).1.getD 9 default).position = ⟨⟨8, 0⟩, ⟨0, 0⟩⟩ := by
  refine ⟨by decide, by decide, by decide, by decide, by decide, by decide,
    by decide⟩

theorem flatMap_range_map_getD {α : Type} (ncol : ℕ) (d : α) :
    ∀ (row nrow : ℕ) (f : ℕ → ℕ → α) (col : ℕ), row < nrow → col < ncol →
    ((List.range nrow).flatMap (fun i => (List.range ncol).map (f i))).getD
      (row * ncol + col) d = f row col := by
  intro row
  induction row with
  | zero =>
    intro nrow f col hrow hcol
    cases nrow with
    | zero => omega
    | succ m =>
      rw [List.range_succ_eq_map, List.flatMap_cons]
      have hlen : col < ((List.range ncol).map (f 0)).length := by
        simpa using hcol
      rw [Nat.zero_mul, Nat.zero_add, List.getD_append _ _ _ _ hlen,
        List.getD_eq_getElem _ _ hlen]
      simp
  | succ row ih =>
    intro nrow f col hrow hcol
    cases nrow with
    | zero => omega
    | succ m =>
      rw [List.range_succ_eq_map, List.flatMap_cons]
      have hlen : ((List.range ncol).map (f 0)).length = ncol := by simp
      have hge : ((List.range ncol).map (f 0)).length ≤ (row + 1) * ncol + col := by
        simp only [hlen]
        calc ncol ≤ (row + 1) * ncol := Nat.le_mul_of_pos_left _ (by omega)
        _ ≤ (row + 1) * ncol + col := Nat.le_add_right _ _
      rw [List.getD_append_right _ _ _ _ hge, List.flatMap_map]
      have hidx : (row + 1) * ncol + col - ((List.range ncol).map (f 0)).length
          = row * ncol + col := by
        simp only [hlen]
        have : (row + 1) * ncol = row * ncol + ncol := by ring
        omega
      rw [hidx]
      exact ih m (fun i => f (i + 1)) col (by omega) hcol

/-- C7 (amended): `create_particle_lattice` lays candidate hexagon centers
on a row-major `count_y × count_x` grid whose slot `(row, col)` has center
`x = 1.5·r·(row % 2) + 3·r·col` (horizontal pitch `dx = 3·r`, odd rows
offset by `1.5·r`) and `y = (r·√3/2)·row` (vertical pitch `dy = r·√3/2`,
the `QS` value `⟨0, r/2·row⟩` — the claim's `dy = r·√3` is what the
counterexample refutes), and the slot is a placed hexagon iff the bitmap
pixel at the truncated center coordinates equals `DRAW_COLOR` exactly. -/
theorem c7_grid_characterization (create_canvas : Img) (hex_radius : ℚ)
    (row col : ℕ) (hrow : row < count_y create_canvas hex_radius)
    (hcol : col < count_x create_canvas hex_radius) :
    (hex_points create_canvas hex_radius).getD
        (row * count_x create_canvas hex_radius + col) none
      = (if create_canvas.pix
            (QS.toU32 (QS.ofRat (3 / 2 * hex_radius * (row % 2 : ℕ)
              + hex_radius * 3 * (col : ℚ))))
            (QS.toU32 (⟨0, hex_radius / 2 * (row : ℚ)⟩ : QS)) = DRAW_COLOR
        then some (QS.ofRat (3 / 2 * hex_radius * (row % 2 : ℕ)
            + hex_radius * 3 * (col : ℚ)), (⟨0, hex_radius / 2 * (row : ℚ)⟩ : QS))
        else none) := by
  unfold hex_points
  exact flatMap_range_map_getD (count_x create_canvas hex_radius) none row
    (count_y create_canvas hex_radius) _ col hrow hcol

/-- Witness for C7 at a concrete input: grid slot (row 2, col 0) of
`bm_two_hexes` with hex radius 2. -/
theorem c7_witness :
    2 < count_y bm_two_hexes 2 ∧ 0 < count_x bm_two_hexes 2 ∧
    (hex_points bm_two_hexes 2).getD (2 * count_x bm_two_hexes 2 + 0) none
      = (if bm_two_hexes.pix
            (QS.toU32 (QS.ofRat (3 / 2 * 2 * ((2 : ℕ) % 2 : ℕ)
              + 2 * 3 * ((0 : ℕ) : ℚ))))
            (QS.toU32 (⟨0, 2 / 2 * ((2 : ℕ) : ℚ)⟩ : QS)) = DRAW_COLOR
        then some (QS.ofRat (3 / 2 * 2 * ((2 : ℕ) % 2 : ℕ)
            + 2 * 3 * ((0 : ℕ) : ℚ)), (⟨0, 2 / 2 * ((2 : ℕ) : ℚ)⟩ : QS))
        else none) :=
  ⟨by decide, by decide, c7_grid_characterization bm_two_hexes 2 2 0
    (by decide) (by decide)⟩

/-- C7 (counterexample): the claimed vertical pitch `dy = r·√3` is wrong.
For `bm_two_hexes` and `r = 2` the code places the row-2 hexagon at center
`(0, 2·√3)` (the `QS` value `⟨0,2⟩`, from `dy = r·√3/2`), not at
`y = r·√3·2 = 4·√3` (the value `⟨0,4⟩`); consequently the whole grid of
`spec_hex_points` (modelled from the spec's `dy = r·√3`) differs from the
code's `hex_points`. -/
theorem c7_counterexample :
    hex_points bm_two_hexes 2 ≠ spec_hex_points bm_two_hexes 2 ∧
    (hex_points bm_two_hexes 2).getD 4 none = some (⟨0, 0⟩, ⟨0, 2⟩) ∧
    ((⟨0, 2⟩ : QS)) ≠ ⟨0, 2 * 2⟩ := by
  refine ⟨by decide, by decide, by decide⟩

theorem region_pix {w h : ℕ} {c₀ : ℕ → ℕ → Color} {sc : Color}
    {start p : ℕ × ℕ} (hstart : c₀ start.1 start.2 = sc)
    (hp : Region w h c₀ sc start p) : c₀ p.1 p.2 = sc := by
  induction hp with
  | refl => exact hstart
  | tail _ st _ => exact st.2.2.2

theorem nbrs_adjacent {w h : ℕ} {q : BPix w h} :
    ∀ b ∈ nbrs w h q, adjacent q.val b.val := by
  intro b hb
  unfold nbrs at hb
  rw [List.mem_append, List.mem_append, List.mem_append] at hb
  rcases hb with ((h1 | h2) | h3) | h4
  · split at h1
    · simp only [List.mem_singleton] at h1
      subst h1
      exact Or.inr ⟨rfl, Or.inl rfl⟩
    · simp at h1
  · split at h2
    · simp only [List.mem_singleton] at h2
      subst h2
      rename_i hx0
      refine Or.inr ⟨rfl, Or.inr ?_⟩
      show q.val.1 - 1 + 1 = q.val.1
      omega
    · simp at h2
  · split at h3
    · simp only [List.mem_singleton] at h3
      subst h3
      exact Or.inl ⟨rfl, Or.inl rfl⟩
    · simp at h3
  · split at h4
    · simp only [List.mem_singleton] at h4
      subst h4
      rename_i hy0
      refine Or.inl ⟨rfl, Or.inr ?_⟩
      show q.val.2 - 1 + 1 = q.val.2
      omega
    · simp at h4

theorem nbrs_coverage {w h : ℕ} (q : BPix w h) (g : ℕ × ℕ)
    (hadj : adjacent q.val g) (hgw : g.1 < w) (hgh : g.2 < h) :
    ∃ b ∈ nbrs w h q, b.val = g := by
  obtain ⟨gx, gy⟩ := g
  rcases hadj with ⟨hx, hy | hy⟩ | ⟨hy, hx | hx⟩
  all_goals simp only at hx hy hgw hgh
  · -- gy = q.2 + 1 (down)
    refine ⟨⟨(q.val.1, q.val.2 + 1), q.prop.1, by omega⟩, ?_, by simp; omega⟩
    unfold nbrs
    rw [List.mem_append, List.mem_append, List.mem_append]
    refine Or.inl (Or.inr ?_)
    rw [dif_pos (by omega)]
    exact List.mem_singleton.mpr rfl
  · -- gy + 1 = q.2 (up)
    refine ⟨⟨(q.val.1, q.val.2 - 1), q.prop.1,
      Nat.lt_of_le_of_lt (Nat.sub_le _ _) q.prop.2⟩, ?_, by simp; omega⟩
    unfold nbrs
    rw [List.mem_append]
    refine Or.inr ?_
    rw [dif_pos (by omega)]
    exact List.mem_singleton.mpr rfl
  · -- gx = q.1 + 1 (right)
    refine ⟨⟨(q.val.1 + 1, q.val.2), by omega, q.prop.2⟩, ?_, by simp; omega⟩
    unfold nbrs
    rw [List.mem_append, List.mem_append, List.mem_append]
    refine Or.inl (Or.inl (Or.inl ?_))
    rw [dif_pos (by omega)]
    exact List.mem_singleton.mpr rfl
  · -- gx + 1 = q.1 (left)
    refine ⟨⟨(q.val.1 - 1, q.val.2),
      Nat.lt_of_le_of_lt (Nat.sub_le _ _) q.prop.1, q.prop.2⟩, ?_, by simp; omega⟩
    unfold nbrs
    rw [List.mem_append, List.mem_append, List.mem_append]
    refine Or.inl (Or.inl (Or.inr ?_))
    rw [dif_pos (by omega)]
    exact List.mem_singleton.mpr rfl

theorem setPix_ne {pixf : ℕ → ℕ → Color} {qv p : ℕ × ℕ} {c : Color}
    (hp : p ≠ qv) : setPix pixf qv c p.1 p.2 = pixf p.1 p.2 := by
  unfold setPix
  rw [if_neg (fun hc => hp (Prod.ext hc.1 hc.2))]

theorem setPix_self (pixf : ℕ → ℕ → Color) (qv : ℕ × ℕ) (c : Color) :
    setPix pixf qv c qv.1 qv.2 = c := by
  unfold setPix
  rw [if_pos ⟨rfl, rfl⟩]

/-- Recoloring the just-popped pixel `qv` cannot disconnect any remaining
`sc`-colored pixel: a path to `p ≠ qv` either avoided `qv` or can be
restarted, after its last visit to `qv`, at an in-bounds `sc`-colored
neighbor of `qv`. -/
theorem path_surgery {w h : ℕ} {pixf : ℕ → ℕ → Color} {sc fc : Color}
    (hne : sc ≠ fc) {qv : ℕ × ℕ} {f p : ℕ × ℕ}
    (hrtg : Relation.ReflTransGen (regionStep w h pixf sc) f p) :
    p ≠ qv →
    (f ≠ qv ∧ Relation.ReflTransGen
        (regionStep w h (setPix pixf qv fc) sc) f p) ∨
    (∃ g : ℕ × ℕ, adjacent qv g ∧ g.1 < w ∧ g.2 < h ∧ pixf g.1 g.2 = sc ∧
      g ≠ qv ∧ Relation.ReflTransGen
        (regionStep w h (setPix pixf qv fc) sc) g p) := by
  induction hrtg with
  | refl => exact fun hp => Or.inl ⟨hp, Relation.ReflTransGen.refl⟩
  | tail rtg st ih =>
    rename_i m p'
    intro hp
    have hstep' : p' ≠ qv → regionStep w h (setPix pixf qv fc) sc m p' :=
      fun hp' => ⟨st.1, st.2.1, st.2.2.1, by rw [setPix_ne hp']; exact st.2.2.2⟩
    by_cases hm : m = qv
    · subst hm
      exact Or.inr ⟨p', st.1, st.2.1, st.2.2.1, st.2.2.2, hp,
        Relation.ReflTransGen.refl⟩
    · rcases ih hm with ⟨hf, rtg'⟩ | ⟨g, hg1, hg2, hg3, hg4, hg5, rtg'⟩
      · exact Or.inl ⟨hf, rtg'.tail (hstep' hp)⟩
      · exact Or.inr ⟨g, hg1, hg2, hg3, hg4, hg5, rtg'.tail (hstep' hp)⟩

/-- Main loop invariant proof for `flood_go`: if the frontier and coloring
satisfy the flood-fill invariants with respect to the original coloring
`c₀`, the loop recolors exactly the region of `start` to `fc` and leaves
everything else at `c₀`. -/
theorem flood_go_spec (w h : ℕ) (sc fc : Color) (hne : sc ≠ fc)
    (c₀ : ℕ → ℕ → Color) (start : ℕ × ℕ) :
    ∀ (n : ℕ) (pixf : ℕ → ℕ → Color) (F : List (BPix w h)),
    fillMeasure w h sc pixf F ≤ n →
    (∀ p : ℕ × ℕ, ¬ Region w h c₀ sc start p → pixf p.1 p.2 = c₀ p.1 p.2) →
    (∀ p : ℕ × ℕ, Region w h c₀ sc start p →
      pixf p.1 p.2 = fc ∨ pixf p.1 p.2 = sc) →
    (∀ f ∈ F, pixf f.val.1 f.val.2 = sc → Region w h c₀ sc start f.val) →
    (∀ p : ℕ × ℕ, Region w h c₀ sc start p → pixf p.1 p.2 = sc →
      ∃ f ∈ F, pixf f.val.1 f.val.2 = sc ∧
        Relation.ReflTransGen (regionStep w h pixf sc) f.val p) →
    ∀ p : ℕ × ℕ,
      (Region w h c₀ sc start p → flood_go w h sc fc hne pixf F p.1 p.2 = fc) ∧
      (¬ Region w h c₀ sc start p →
        flood_go w h sc fc hne pixf F p.1 p.2 = c₀ p.1 p.2) := by
  intro n
  induction n with
  | zero =>
    intro pixf F hmeas I1 I2 I3 I4
    cases F with
    | nil =>
      intro p
      rw [flood_go]
      constructor
      · intro hp
        rcases I2 p hp with hfc | hsc
        · exact hfc
        · obtain ⟨f, hf, _, _⟩ := I4 p hp hsc
          exact absurd hf (List.not_mem_nil f)
      · exact I1 p
    | cons q rest =>
      exfalso
      unfold fillMeasure at hmeas
      simp only [List.length_cons] at hmeas
      omega
  | succ n ih =>
    intro pixf F hmeas I1 I2 I3 I4
    cases F with
    | nil =>
      intro p
      rw [flood_go]
      constructor
      · intro hp
        rcases I2 p hp with hfc | hsc
        · exact hfc
        · obtain ⟨f, hf, _, _⟩ := I4 p hp hsc
          exact absurd hf (List.not_mem_nil f)
      · exact I1 p
    | cons q rest =>
      rw [flood_go]
      by_cases hq : pixf q.val.1 q.val.2 ≠ sc
      · -- boundary pixel: discard without recoloring
        rw [if_pos hq]
        refine ih pixf rest ?_ I1 I2 ?_ ?_
        · unfold fillMeasure at hmeas ⊢
          simp only [List.length_cons] at hmeas
          omega
        · exact fun f hf => I3 f (List.mem_cons_of_mem _ hf)
        · intro p hp hpsc
          obtain ⟨f, hf, hfsc, hrtg⟩ := I4 p hp hpsc
          rcases List.mem_cons.mp hf with rfl | hfmem
          · exact absurd hfsc hq
          · exact ⟨f, hfmem, hfsc, hrtg⟩
      · -- recolor and push the in-bounds neighbors
        rw [if_neg hq]
        push_neg at hq
        have hqreg : Region w h c₀ sc start q.val :=
          I3 q (List.mem_cons_self q rest) hq
        refine ih (setPix pixf q.val fc) ((nbrs w h q).reverse ++ rest) ?_
          ?_ ?_ ?_ ?_
        · have := fillMeasure_recolor w h sc fc hne pixf q rest hq
          omega
        · -- I1 preserved
          intro p hp
          have hpq : p ≠ q.val := fun he => hp (he ▸ hqreg)
          rw [setPix_ne hpq]
          exact I1 p hp
        · -- I2 preserved
          intro p hp
          by_cases hpq : p = q.val
          · subst hpq
            left
            exact setPix_self pixf q.val fc
          · rw [setPix_ne hpq]
            exact I2 p hp
        · -- I3 preserved
          intro f hf hfsc
          have hfq : f.val ≠ q.val := by
            intro he
            rw [he, setPix_self] at hfsc
            exact hne hfsc.symm
          rw [setPix_ne hfq] at hfsc
          rcases List.mem_append.mp hf with hnb | hmem
          · have hadj := nbrs_adjacent f (List.mem_reverse.mp hnb)
            by_cases hreg : Region w h c₀ sc start f.val
            · exact hreg
            · have hc₀ : c₀ f.val.1 f.val.2 = sc := by
                rw [← I1 f.val hreg]; exact hfsc
              exact hqreg.tail ⟨hadj, f.prop.1, f.prop.2, hc₀⟩
          · exact I3 f (List.mem_cons_of_mem _ hmem) hfsc
        · -- I4 preserved
          intro p hp hpsc
          have hpq : p ≠ q.val := by
            intro he
            rw [he, setPix_self] at hpsc
            exact hne hpsc.symm
          rw [setPix_ne hpq] at hpsc
          obtain ⟨f, hf, hfsc, hrtg⟩ := I4 p hp hpsc
          rcases path_surgery hne hrtg hpq with ⟨hfq, hrtg'⟩ |
            ⟨g, hg1, hg2, hg3, hg4, hg5, hrtg'⟩
          · -- the path avoided q; its head is still in the new frontier
            have hfmem : f ∈ rest := by
              rcases List.mem_cons.mp hf with rfl | hm
              · exact absurd rfl hfq
              · exact hm
            exact ⟨f, List.mem_append.mpr (Or.inr hfmem),
              by rw [setPix_ne hfq]; exact hfsc, hrtg'⟩
          · -- restart at a pushed neighbor of q
            obtain ⟨b, hb, hbval⟩ := nbrs_coverage q g hg1 hg2 hg3
            refine ⟨b, List.mem_append.mpr (Or.inl (List.mem_reverse.mpr hb)),
              ?_, ?_⟩
            · rw [hbval, setPix_ne hg5]
              exact hg4
            · rw [hbval]
              exact hrtg'

/-- C8: for every in-bounds start pixel whose color differs from
`fill_color`, `flood_fill` terminates (it is a total function built by
well-founded recursion) and returns a bitmap in which exactly the
4-connected region of pixels sharing the start pixel's original color is
recolored to `fill_color`, while every pixel outside that region is
unchanged (boundary pixels are discarded without recoloring, no diagonal
connectivity). -/
theorem c8_flood_fill_region (create_canvas : Img) (start_pos : ℕ × ℕ)
    (fill_color : Color) (hx : start_pos.1 < create_canvas.w)
    (hy : start_pos.2 < create_canvas.h)
    (hcol : create_canvas.pix start_pos.1 start_pos.2 ≠ fill_color) :
    ∃ img', flood_fill create_canvas start_pos fill_color = some img' ∧
      img'.w = create_canvas.w ∧ img'.h = create_canvas.h ∧
      ∀ p : ℕ × ℕ,
        (Region create_canvas.w create_canvas.h create_canvas.pix
            (create_canvas.pix start_pos.1 start_pos.2) start_pos p →
          img'.pix p.1 p.2 = fill_color) ∧
        (¬ Region create_canvas.w create_canvas.h create_canvas.pix
            (create_canvas.pix start_pos.1 start_pos.2) start_pos p →
          img'.pix p.1 p.2 = create_canvas.pix p.1 p.2) := by
  unfold flood_fill
  rw [dif_pos ⟨hx, hy⟩, dif_neg hcol]
  refine ⟨_, rfl, rfl, rfl, ?_⟩
  exact flood_go_spec create_canvas.w create_canvas.h
    (create_canvas.pix start_pos.1 start_pos.2) fill_color hcol
    create_canvas.pix start_pos
    (fillMeasure create_canvas.w create_canvas.h
      (create_canvas.pix start_pos.1 start_pos.2) create_canvas.pix
      [⟨start_pos, hx, hy⟩])
    create_canvas.pix [⟨start_pos, hx, hy⟩] (Nat.le_refl _)
    (fun _ _ => rfl)
    (fun p hp => Or.inr (region_pix rfl hp))
    (fun f hf _ => by
      rcases List.mem_singleton.mp hf with rfl
      exact Relation.ReflTransGen.refl)
    (fun p hp _ => ⟨⟨start_pos, hx, hy⟩, List.mem_singleton.mpr rfl, rfl, hp⟩)

/-- Witness for C8 at a concrete input: a 3×2 bitmap whose top row holds
two pixels of color `(1,1,1,1)` next to a `(2,2,2,2)` border, filled from
`(0,0)` with `(9,9,9,9)`. -/
theorem c8_witness :
    (0 : ℕ) < 3 ∧ (0 : ℕ) < 2 ∧
    (Img.mk 3 2 (fun x y =>
      if y = 0 ∧ x < 2 then (1, 1, 1, 1) else (2, 2, 2, 2))).pix 0 0
      ≠ (9, 9, 9, 9) ∧
    (∃ img', flood_fill
        (Img.mk 3 2 (fun x y =>
          if y = 0 ∧ x < 2 then (1, 1, 1, 1) else (2, 2, 2, 2)))
        (0, 0) (9, 9, 9, 9) = some img' ∧
      img'.w = 3 ∧ img'.h = 2 ∧
      ∀ p : ℕ × ℕ,
        (Region 3 2 (fun x y =>
            if y = 0 ∧ x < 2 then (1, 1, 1, 1) else (2, 2, 2, 2))
            (1, 1, 1, 1) (0, 0) p →
          img'.pix p.1 p.2 = (9, 9, 9, 9)) ∧
        (¬ Region 3 2 (fun x y =>
            if y = 0 ∧ x < 2 then (1, 1, 1, 1) else (2, 2, 2, 2))
            (1, 1, 1, 1) (0, 0) p →
          img'.pix p.1 p.2 = (if p.2 = 0 ∧ p.1 < 2 then (1, 1, 1, 1)
            else (2, 2, 2, 2)))) :=
  ⟨by decide, by decide, by decide,
    c8_flood_fill_region
      (Img.mk 3 2 (fun x y =>
        if y = 0 ∧ x < 2 then (1, 1, 1, 1) else (2, 2, 2, 2)))
      (0, 0) (9, 9, 9, 9) (by decide) (by decide) (by decide)⟩
